import Mathlib

/-!
Shallow embedding of PyMODAlib's group-coherence core
(`pymodalib/implementations/python/coherence/group_coherence.py`).

Modelling conventions:
* numpy floats are rationals (`ℚ`); a NaN *cell* of the coherence tensor is `none`
  (the source always NaN-fills whole cells `[i, j, :]`, never single scalars).
* A numpy array of signals is `NDArr`: either 1-D or 2-D, so that the source's
  `x, y = a.shape` unpacking (and its `ValueError` handler) can be modelled.
* Python exceptions become `Except CErr`; `CoherenceException`, `IndexError` and
  numpy's broadcasting `ValueError` each get a constructor.
* The external collaborators (`wavelet_transform` via the `wt` wrapper, and
  `wphcoh`) are oracle parameters, bundled in `Oracles`:
  `wtf` returns the transform (an opaque `T`) and the frequency axis (the oracle
  returns it 1-D, so the source's `freq.reshape` is the identity and is omitted),
  `phc` returns `wphcoh`'s first component (a scales x times matrix),
  `init` is the fill value of a freshly allocated cached array, and
  `nscales` is the scale-axis length of every transform (the structural
  invariant of §3 of the spec: all transforms in a run share one shape).
* Observable side effects (pool creation, `pymodalib.cleanup`) are a trace of
  `Ev` values; the source never calls any pool release such as
  `pool.terminate`/`pool.close`, so no code path emits `Ev.poolRelease`.
* `print` calls and the non-fatal orientation `warnings.warn` are not modelled.
-/

/-- Scalar cells of the coherence tensor: `none` is a NaN-filled cell. -/
abbrev Cell : Type := Option (List ℚ)

/-- The subjects x subjects coherence tensor (each cell holds one value per scale). -/
abbrev Grid : Type := List (List Cell)

/-- A numpy array holding a group of signals: 1-D or 2-D (rows = subjects). -/
inductive NDArr where
  | one (data : List ℚ)
  | two (rows : List (List ℚ))
deriving DecidableEq

/-- Errors raised by the source: `CoherenceException` (two call sites),
numpy `IndexError`, and numpy's `ValueError` on a shape-mismatched
slice assignment. -/
inductive CErr where
  | notTwoDimensional
  | dimMismatch
  | indexError
  | broadcastError
deriving DecidableEq

/-- Observable resource events of one orchestrator run. -/
inductive Ev where
  | poolCreate (processes : Nat)
  | poolRelease
  | cleanup
deriving DecidableEq

/-- The external collaborators of the core (spec §6), plus the cached-array
fill value and the shared scale count. -/
structure Oracles (T : Type) where
  wtf : List ℚ → T × List ℚ
  phc : T → T → List (List ℚ)
  init : T
  nscales : Nat

/-- Equality of `Except` results is decidable (used to evaluate the embedded
pipeline on concrete inputs). -/
instance {α β : Type} [DecidableEq α] [DecidableEq β] : DecidableEq (Except α β) :=
  fun a b =>
    match a, b with
    | .error x, .error y =>
      if h : x = y then .isTrue (by rw [h]) else .isFalse (by simp [h])
    | .ok x, .ok y =>
      if h : x = y then .isTrue (by rw [h]) else .isFalse (by simp [h])
    | .error _, .ok _ => .isFalse (by simp)
    | .ok _, .error _ => .isFalse (by simp)

/-- `a.shape` of a numpy array. -/
def NDArr.shape : NDArr → List Nat
  | .one d => [d.length]
  | .two r => [r.length, (r.headD []).length]

/-- `x, y = a.shape`: succeeds exactly for a 2-D array, otherwise the
`ValueError` handler turns it into a `CoherenceException`. -/
def unpack2 : NDArr → Except CErr (Nat × Nat)
  | .two rows => .ok (rows.length, (rows.headD []).length)
  | .one _ => .error .notTwoDimensional

/-- `a[i, :]`: `IndexError` on a 1-D array (too many indices) or out of range. -/
def NDArr.getRow : NDArr → Nat → Except CErr (List ℚ)
  | .two r, i =>
    match r.get? i with
    | some row => .ok row
    | none => .error .indexError
  | .one _, _ => .error .indexError

/-- `a[s:e, :]`: numpy slicing clamps and never raises on a 2-D array. -/
def NDArr.sliceRows : NDArr → Nat → Nat → Except CErr (List (List ℚ))
  | .two r, s, e => .ok ((r.drop s).take (e - s))
  | .one _, _, _ => .error .indexError

/-- Lines 118-124 of the source: both unpackings read `signals_a.shape`
(the second line of the `try` block contains `xb, yb = signals_a.shape`,
so `signals_b` is never inspected by the validation). -/
def groupValidate (sa _sb : NDArr) : Except CErr (Nat × Nat × Nat × Nat) :=
  match unpack2 sa with
  | .error e => .error e
  | .ok (xa, ya) =>
    match unpack2 sa with
    | .error e => .error e
    | .ok (xb, yb) => .ok (xa, ya, xb, yb)

/-- `np.arange a b` over naturals. -/
def npArange (a b : Nat) : List Nat := (List.range (b - a)).map (· + a)

/-- Chunk sizes of a numpy-style near-equal split of `n` items into `k` parts:
the first `n % k` parts take one extra item. -/
def chunkSizes (n k : Nat) : List Nat :=
  (List.range k).map (fun i => n / k + if i < n % k then 1 else 0)

/-- Cut a list into consecutive pieces of the given sizes. -/
def takeSizes : List Nat → List Nat → List (List Nat)
  | [], _ => []
  | s :: ss, xs => xs.take s :: takeSizes ss (xs.drop s)

/-- Modelled from the spec: `array_split` (the Chunk Planner,
`pymodalib.utils.chunks`) is not among the sources.  Per §4.1 it returns
contiguous, non-overlapping, non-empty sub-ranges covering the index range,
ordered ascending, sizes differing by at most one; to keep every chunk
non-empty when there are fewer indices than workers, it produces
`min p n` chunks. -/
def arraySplit (xs : List Nat) (p : Nat) : List (List Nat) :=
  takeSizes (chunkSizes xs.length (min p xs.length)) xs

/-- `c[0], c[-1]` of a chunk; `IndexError` on an empty chunk. -/
def chunkHeadLast (c : List Nat) : Except CErr (Nat × Nat) :=
  match c.head?, c.getLast? with
  | some s, some e => .ok (s, e)
  | _, _ => .error .indexError

/-- numpy slice assignment `dst[s:e] = src` on the leading axis, with numpy's
broadcasting rule: the source must have the slice's length, or length one
(in which case its single row is repeated); anything else raises
`ValueError`. -/
def sliceAssign {α : Type} (dst : List α) (s e : Nat) (src : List α) :
    Except CErr (List α) :=
  if src.length = min e dst.length - min s (min e dst.length) then
    .ok (dst.take (min s (min e dst.length)) ++ src ++ dst.drop (min e dst.length))
  else
    match src with
    | [x] =>
      .ok (dst.take (min s (min e dst.length)) ++
        List.replicate (min e dst.length - min s (min e dst.length)) x ++
        dst.drop (min e dst.length))
    | _ => .error .broadcastError

/-- A `for`-loop body of `_chunk_wt` (lines 42-64): walk the rows of the
chunk's a-slice, indexing the b-slice at the same position (IndexError if the
b-slice is shorter), and take each row's wavelet transform. -/
def chunkWTgo {T : Type} (wtf : List ℚ → T × List ℚ) :
    List (List ℚ) → List (List ℚ) → Except CErr (List (T × T))
  | [], _ => .ok []
  | ra :: ras, bs =>
    match bs with
    | [] => .error .indexError
    | rb :: rbs =>
      match chunkWTgo wtf ras rbs with
      | .error e => .error e
      | .ok rest => .ok (((wtf ra).1, (wtf rb).1) :: rest)

/-- Sequential `Except`-valued map (a python `for` loop building a list). -/
def mapExcept {α β : Type} (f : α → Except CErr β) : List α → Except CErr (List β)
  | [] => .ok []
  | a :: l =>
    match f a with
    | .error e => .error e
    | .ok b =>
      match mapExcept f l with
      | .error e => .error e
      | .ok bs => .ok (b :: bs)

/-- Lines 180-184: `for chunk, (result1, result2) in zip(chunks, results)`,
writing each chunk's pair of sub-arrays into `[chunk[0] : chunk[-1] + 1]` of
the two caches. -/
def mergeWT {T : Type} : List T → List T → List (List Nat) → List (List T × List T) →
    Except CErr (List T × List T)
  | accA, accB, [], _ => .ok (accA, accB)
  | accA, accB, _, [] => .ok (accA, accB)
  | accA, accB, c :: cs, r :: rs =>
    match chunkHeadLast c with
    | .error e => .error e
    | .ok se =>
      match sliceAssign accA se.1 (se.2 + 1) r.1 with
      | .error e => .error e
      | .ok a' =>
        match sliceAssign accB se.1 (se.2 + 1) r.2 with
        | .error e => .error e
        | .ok b' => mergeWT a' b' cs rs

/-- Lines 161-167: per-chunk worker arguments.  `start, end = c[0], c[-1]`,
a size-one chunk (`start == end`) is widened by one, and the half-open slices
`signals[start:end, :]` are taken (note: `end` is `c[-1]`, NOT `c[-1] + 1`). -/
def transformArg (sa sb : NDArr) (c : List Nat) :
    Except CErr (List (List ℚ) × List (List ℚ)) :=
  match chunkHeadLast c with
  | .error e => .error e
  | .ok se =>
    let e := if se.1 = se.2 then se.2 + 1 else se.2
    match sa.sliceRows se.1 e with
    | .error err => .error err
    | .ok slA =>
      match sb.sliceRows se.1 e with
      | .error err => .error err
      | .ok slB => .ok (slA, slB)

/-- The Parallel Transform Stage (lines 137-184): the first pair of transforms
is computed to learn the frequency axis, two caches of `xa` resp. `xb` rows are
allocated (filled with `init`), the remaining indices `1..xa-1` are chunked,
each worker transforms its half-open row slice, and the results are merged
back into `[chunk[0] : chunk[-1] + 1]`. -/
def transformStage {T : Type} (orc : Oracles T) (procs : Nat) (sa sb : NDArr)
    (xa xb : Nat) : Except CErr (List ℚ × List T × List T) :=
  match sa.getRow 0 with
  | .error e => .error e
  | .ok ra0 =>
    match sb.getRow 0 with
    | .error e => .error e
    | .ok rb0 =>
      let freq := (orc.wtf ra0).2
      let _wtb := (orc.wtf rb0).1
      let cacheA : List T := List.replicate xa orc.init
      let cacheB : List T := List.replicate xb orc.init
      let chunks := arraySplit (npArange 1 xa) procs
      match mapExcept (transformArg sa sb) chunks with
      | .error e => .error e
      | .ok args =>
        match mapExcept (fun p => chunkWTgo orc.wtf p.1 p.2) args with
        | .error e => .error e
        | .ok results =>
          let pairs := results.map (fun r => (r.map Prod.fst, r.map Prod.snd))
          match mergeWT cacheA cacheB chunks pairs with
          | .error e => .error e
          | .ok caches => .ok (freq, caches.1, caches.2)

/-- `np.average(m, axis=1)`: the mean of each row. -/
def avgRows (m : List (List ℚ)) : List ℚ := m.map (fun row => row.sum / row.length)

/-- `_group_coherence` (lines 67-81): for each row transform and each column
transform, if the mask admits the cell, time-average `wphcoh`; a masked-out
cell is left unwritten (`none`, like `np.empty`'s uninitialised storage). -/
def groupCoherenceWorker {T : Type} (phc : T → T → List (List ℚ))
    (wta : List T) (wtb : List T) (mask : List (List Bool)) : Grid :=
  (wta.zip mask).map (fun p =>
    (wtb.zip p.2).map (fun q => if q.2 then some (avgRows (phc p.1 q.1)) else none))

/-- Lines 219-230: per-chunk arguments of the coherence stage — a row slice
`[c[0] : c[-1] + 1]` of the transform cache and of the mask. -/
def coherenceArg {T : Type} (cacheA : List T) (mask : List (List Bool))
    (c : List Nat) : Except CErr (List T × List (List Bool)) :=
  match chunkHeadLast c with
  | .error e => .error e
  | .ok se =>
    .ok ((cacheA.drop se.1).take (se.2 + 1 - se.1),
         (mask.drop se.1).take (se.2 + 1 - se.1))

/-- Lines 240-243: write each worker's rows into `[chunk[0] : chunk[-1] + 1]`
of the coherence tensor. -/
def mergeCoh : Grid → List (List Nat) → List Grid → Except CErr Grid
  | acc, [], _ => .ok acc
  | acc, _, [] => .ok acc
  | acc, c :: cs, r :: rs =>
    match chunkHeadLast c with
    | .error e => .error e
    | .ok se =>
      match sliceAssign acc se.1 (se.2 + 1) r with
      | .error e => .error e
      | .ok acc' => mergeCoh acc' cs rs

/-- Line 248, `coherence[~mask, :] = np.nan`: NaN-fill every masked-out cell. -/
def applyNegMask (coh : Grid) (mask : List (List Bool)) : Grid :=
  (coh.zip mask).map (fun p => (p.1.zip p.2).map (fun q => if q.2 then q.1 else none))

/-- The Coherence Matrix Builder (lines 209-248): an uninitialised
`xa x xa`-cell tensor, an all-true mask (`mask.fill(True)`), row chunks over
`0..xa-1`, one worker per chunk (each receiving the whole b-cache), merge, and
the blanket NaN pass over the negated mask. -/
def coherenceStage {T : Type} (orc : Oracles T) (procs xa : Nat)
    (cacheA cacheB : List T) : Except CErr Grid :=
  match mapExcept (coherenceArg cacheA (List.replicate xa (List.replicate xa true)))
      (arraySplit (npArange 0 xa) procs) with
  | .error e => .error e
  | .ok args =>
    match mergeCoh (List.replicate xa (List.replicate xa none))
        (arraySplit (npArange 0 xa) procs)
        (args.map (fun p => groupCoherenceWorker orc.phc p.1 cacheB p.2)) with
    | .error e => .error e
    | .ok coh => .ok (applyNegMask coh (List.replicate xa (List.replicate xa true)))

/-- An indexed map (used to model numpy operations that depend on the cell's
position, such as diagonal writes). -/
def idxMapFrom {α β : Type} (f : Nat → α → β) : Nat → List α → List β
  | _, [] => []
  | i, a :: l => f i a :: idxMapFrom f (i + 1) l

/-- `idxMapFrom` starting at index 0. -/
def idxMap {α β : Type} (f : Nat → α → β) (l : List α) : List β := idxMapFrom f 0 l

/-- Line 264, `real_coherences = coherence[diag]`: the diagonal cells (fancy
indexing copies, so later writes to the tensor do not alter this). -/
def diagExtract (coh : Grid) : List Cell := idxMap (fun i row => row.getD i none) coh

/-- Line 267, `coherence[diag] = np.nan`. -/
def diagToNaN (coh : Grid) : Grid :=
  idxMap (fun i row => idxMap (fun j c => if i = j then none else c) row) coh

/-- Lines 274-281: the per-subject surrogate view — a copy of the tensor in
which every cell with `i != coh_index and j != coh_index` is NaN-filled. -/
def surrView (coh : Grid) (k : Nat) : Grid :=
  idxMap (fun i row => idxMap (fun j c => if i ≠ k ∧ j ≠ k then none else c) row) coh

/-- Ascending insertion into a sorted list. -/
def insertSorted (x : ℚ) : List ℚ → List ℚ
  | [] => [x]
  | y :: ys => if x ≤ y then x :: y :: ys else y :: insertSorted x ys

/-- Ascending sort (the order numpy's percentile uses). -/
def sortAsc (l : List ℚ) : List ℚ := l.foldr insertSorted []

/-- Floor of a rational (`Rat.floor` unfolded, kept executable). -/
def ratFloor (q : ℚ) : ℤ := q.num / q.den

/-- numpy's percentile with linear interpolation: the value at fractional
position `q/100 * (n-1)` of the ascending sort. -/
def npPercentile (q : ℚ) (vals : List ℚ) : ℚ :=
  let sorted := sortAsc vals
  let n := sorted.length
  let pos : ℚ := q / 100 * ((n : ℚ) - 1)
  let i : Nat := (ratFloor pos).toNat
  let fr : ℚ := pos - (ratFloor pos : ℚ)
  let lo := sorted.getD i 0
  let hi := sorted.getD (min (i + 1) (n - 1)) 0
  lo + fr * (hi - lo)

/-- One scale of `np.nanpercentile(surrogates, percentile, axis=(0, 1))`:
the percentile of the non-NaN values of all cells at that scale, or NaN
(`none`) when no value remains. -/
def nanPercScale (q : ℚ) (cells : List Cell) (s : Nat) : Option ℚ :=
  if (cells.filterMap (fun c => c.bind (fun l => l[s]?))).isEmpty then none
  else some (npPercentile q (cells.filterMap (fun c => c.bind (fun l => l[s]?))))

/-- Lines 274-286 for one subject `k`: build the surrogate view, take the
per-scale nan-percentile over both subject axes, substitute 0 for NaN
percentiles (line 284), and subtract from the subject's real coherence
(`NaN - x = NaN`, so a NaN real coherence stays NaN). -/
def surrStep (q : ℚ) (nsc : Nat) (coh : Grid) (k : Nat) (realk : Cell) : Cell :=
  realk.map (fun l => l.zipWith (fun a b => a - b)
    ((List.range nsc).map
      (fun s => (nanPercScale q (surrView coh k).flatten s).getD 0)))

/-- Line 288, `residual_coherence[residual_coherence < 0] = 0`: a NaN entry
compares false and is left alone, a negative entry becomes 0. -/
def clipNeg (residual : List Cell) : List Cell :=
  residual.map (Option.map (List.map (fun v => if v < 0 then 0 else v)))

/-- The Surrogate Statistics Engine (lines 261-288): extract the diagonal as
the real coherences, NaN the diagonal, subtract each subject's per-scale
surrogate percentile, and clip negatives. -/
def surrogateEngine (q : ℚ) (nsc : Nat) (coh : Grid) : List Cell :=
  clipNeg (idxMap (fun k r => surrStep q nsc (diagToNaN coh) k r) (diagExtract coh))

/-- Cell `(i, j)` of a tensor; the outer `none` means "out of range", while
`some none` is a NaN-filled cell in range. -/
def getCell (g : Grid) (i j : Nat) : Option Cell :=
  g[i]?.bind (fun r => r[j]?)

/-- The spec's description of the surrogate population (§4.4, step 3a): keep
exactly the cells in row `k` and column `k`, excluding the diagonal cell
`(k, k)`; every other cell is NaN. -/
def specView (coh : Grid) (k : Nat) : Grid :=
  idxMap (fun i row => idxMap
    (fun j c => if (i = k ∨ j = k) ∧ ¬(i = k ∧ j = k) then c else none) row) coh

/-- The spec's per-scale surrogate percentile for subject `k`: the percentile,
ignoring NaNs, of the cells in row `k` and column `k` of the diagonal-NaNed
tensor, the diagonal cell excluded; NaN when no value remains. -/
def specPercRowCol (q : ℚ) (coh : Grid) (k s : Nat) : Option ℚ :=
  nanPercScale q (specView (diagToNaN coh) k).flatten s

/-- `group_coherence_impl` (lines 106-296): validation, pool creation,
transform stage, coherence stage, surrogate engine, optional cleanup.
The first component is the trace of resource events; the source contains
no pool release call on any path. -/
def group_coherence_impl {T : Type} (orc : Oracles T) (procs : Nat)
    (sa sb : NDArr) (cleanup : Bool) (percentile : ℚ) :
    List Ev × Except CErr (List ℚ × List Cell) :=
  match groupValidate sa sb with
  | .error e => ([], .error e)
  | .ok q =>
    match transformStage orc procs sa sb q.1 q.2.2.1 with
    | .error e => ([Ev.poolCreate procs], .error e)
    | .ok tout =>
      match coherenceStage orc procs q.1 tout.2.1 tout.2.2 with
      | .error e => ([Ev.poolCreate procs], .error e)
      | .ok coh =>
        (if cleanup then [Ev.poolCreate procs] ++ [Ev.cleanup] else [Ev.poolCreate procs],
          .ok (tout.1, surrogateEngine percentile orc.nscales coh))

/-- Lines 312-335 of `dual_group_coherence_impl`: unpack all four shapes
(`CoherenceException` if any array is not 2-D), then require each group's two
signal sets to agree in both dimensions. -/
def dualValidate (g1a g1b g2a g2b : NDArr) : Except CErr Unit :=
  match unpack2 g1a with
  | .error e => .error e
  | .ok s1a =>
    match unpack2 g1b with
    | .error e => .error e
    | .ok s1b =>
      match unpack2 g2a with
      | .error e => .error e
      | .ok s2a =>
        match unpack2 g2b with
        | .error e => .error e
        | .ok s2b =>
          if s1a.1 ≠ s1b.1 ∨ s1a.2 ≠ s1b.2 ∨ s2a.1 ≠ s2b.1 ∨ s2a.2 ≠ s2b.2 then
            .error .dimMismatch
          else .ok ()

/-- `dual_group_coherence_impl` (lines 299-364): validate, run the single-group
orchestrator once per group with `cleanup=False`, perform one `cleanup`
afterwards, and return the first run's frequency axis with both groups'
residual coherences (the second run's frequency axis is bound to `_`). -/
def dual_group_coherence_impl {T : Type} (orc : Oracles T) (procs : Nat)
    (g1a g1b g2a g2b : NDArr) (percentile : ℚ) :
    List Ev × Except CErr (List ℚ × List Cell × List Cell) :=
  match dualValidate g1a g1b g2a g2b with
  | .error e => ([], .error e)
  | .ok _ =>
    let run1 := group_coherence_impl orc procs g1a g1b false percentile
    match run1.2 with
    | .error e => (run1.1, .error e)
    | .ok r1 =>
      let run2 := group_coherence_impl orc procs g2a g2b false percentile
      match run2.2 with
      | .error e => (run1.1 ++ run2.1, .error e)
      | .ok r2 =>
        (run1.1 ++ run2.1 ++ [Ev.cleanup], .ok (r1.1, r1.2, r2.2))

/-- A tiny concrete oracle over `T = ℚ`: the transform of a signal is its
first sample, the frequency axis is `[5]`, and the phase-coherence matrix of
two transforms is the single cell `[[t * u]]`. -/
def natOracle : Oracles ℚ where
  wtf := fun r => (r.headD 0, [5])
  phc := fun t u => [[t * u]]
  init := 0
  nscales := 1

/-- A concrete oracle whose phase-coherence matrix is constantly `[[1]]`
(so all coherence values are nonnegative). -/
def constOracle : Oracles ℚ where
  wtf := fun r => (r.headD 0, [7])
  phc := fun _ _ => [[1]]
  init := 0
  nscales := 1

/-- A concrete oracle whose frequency axis depends on the signal (used to
exhibit two groups with different frequency axes). -/
def freqOracle : Oracles ℚ where
  wtf := fun r => (r.headD 0, [r.headD 0])
  phc := fun _ _ => [[1]]
  init := 0
  nscales := 1

/-- All (non-NaN) entries of a tensor are nonnegative — the invariant the
coherence tensor inherits from a nonnegative phase-coherence primitive. -/
def NonnegGrid (g : Grid) : Prop :=
  ∀ row ∈ g, ∀ c ∈ row, ∀ l, c = some l → ∀ v ∈ l, 0 ≤ v

/-- A fully computed tensor row: `w` cells, none of them NaN. -/
def GoodRow (w : Nat) (r : List Cell) : Prop :=
  r.length = w ∧ ∀ c ∈ r, c ≠ none

/-- The chunks a numpy-style near-equal split produces, written directly:
consecutive `npArange` intervals of the given sizes starting at `a`. -/
def chunkList (a : Nat) : List Nat → List (List Nat)
  | [] => []
  | sz :: rest => npArange a (a + sz) :: chunkList (a + sz) rest

/-- The per-chunk worker arguments of the coherence stage, written directly
as a function of the chunk offsets and sizes. -/
def argsOf {T : Type} (ca : List T) (mask : List (List Bool)) (a : Nat) :
    List Nat → List (List T × List (List Bool))
  | [] => []
  | sz :: rest =>
    ((ca.drop a).take sz, (mask.drop a).take sz) :: argsOf ca mask (a + sz) rest

/-! ### Basic lemmas about the indexed map -/

theorem idxMapFrom_getElem? {α β : Type} (f : Nat → α → β) (i n : Nat) (l : List α) :
    (idxMapFrom f i l)[n]? = l[n]?.map (f (i + n)) := by
  induction l generalizing i n with
  | nil => simp [idxMapFrom]
  | cons a l ih =>
    cases n with
    | zero => simp [idxMapFrom]
    | succ m =>
      rw [show i + (m + 1) = i + 1 + m by omega]
      simpa [idxMapFrom] using ih (i + 1) m

theorem idxMap_getElem? {α β : Type} (f : Nat → α → β) (n : Nat) (l : List α) :
    (idxMap f l)[n]? = l[n]?.map (f n) := by
  simpa using idxMapFrom_getElem? f 0 n l

theorem idxMapFrom_idxMapFrom {α β γ : Type} (f : Nat → β → γ) (g : Nat → α → β)
    (i : Nat) (l : List α) :
    idxMapFrom f i (idxMapFrom g i l) = idxMapFrom (fun j a => f j (g j a)) i l := by
  induction l generalizing i with
  | nil => rfl
  | cons a l ih => simp [idxMapFrom, ih]

theorem idxMapFrom_congr {α β : Type} {f g : Nat → α → β} (i : Nat) (l : List α)
    (h : ∀ j a, f j a = g j a) : idxMapFrom f i l = idxMapFrom g i l := by
  induction l generalizing i with
  | nil => rfl
  | cons a l ih => simp [idxMapFrom, h, ih]

theorem idxMapFrom_length {α β : Type} (f : Nat → α → β) (i : Nat) (l : List α) :
    (idxMapFrom f i l).length = l.length := by
  induction l generalizing i with
  | nil => rfl
  | cons a l ih => simp [idxMapFrom, ih]

theorem idxMapFrom_mem {α β : Type} {f : Nat → α → β} {i : Nat} {l : List α} {x : β}
    (h : x ∈ idxMapFrom f i l) : ∃ j a, a ∈ l ∧ x = f j a := by
  induction l generalizing i with
  | nil => simp [idxMapFrom] at h
  | cons a l ih =>
    rcases (by simpa [idxMapFrom] using h : x = f i a ∨ x ∈ idxMapFrom f (i + 1) l) with
      h1 | h2
    · exact ⟨i, a, by simp, h1⟩
    · obtain ⟨j, b, hb, hx⟩ := ih h2
      exact ⟨j, b, by simp [hb], hx⟩

/-! ### C2: the surrogate population equals the spec's row-and-column population -/

theorem surrView_diagToNaN_eq_specView (coh : Grid) (k : Nat) :
    surrView (diagToNaN coh) k = specView (diagToNaN coh) k := by
  unfold surrView specView diagToNaN idxMap
  rw [idxMapFrom_idxMapFrom, idxMapFrom_idxMapFrom]
  apply idxMapFrom_congr
  intro i row
  rw [idxMapFrom_idxMapFrom, idxMapFrom_idxMapFrom]
  apply idxMapFrom_congr
  intro j c
  by_cases hik : i = k <;> by_cases hjk : j = k <;> by_cases hij : i = j <;>
    simp [hik, hjk, hij]

/-- C2: for every subject index `k`, the per-scale threshold the Surrogate
Statistics Engine subtracts from subject `k`'s real (diagonal) coherence is
the given percentile, computed per scale while ignoring NaNs, of exactly the
tensor cells in row `k` and column `k` excluding the (already NaN) diagonal
cell; a NaN percentile (no surrogates at that scale) is replaced by 0,
leaving the real coherence unchanged there. -/
theorem surrStep_subtracts_rowcol_percentile (q : ℚ) (nsc : Nat) (coh : Grid)
    (k : Nat) (l : List ℚ) :
    surrStep q nsc (diagToNaN coh) k (some l) =
      some (l.zipWith (fun a b => a - b)
        ((List.range nsc).map (fun s => (specPercRowCol q coh k s).getD 0))) := by
  unfold surrStep specPercRowCol
  rw [surrView_diagToNaN_eq_specView]
  rfl

/-! ### C6: pool lifecycle -/

/-- C6 (amended): the single-group orchestrator never releases the worker
pool — no execution path emits a pool-release action before exit; the source
contains no `pool.close`/`pool.terminate`/`pool.join` call. -/
theorem pool_never_released {T : Type} (orc : Oracles T) (procs : Nat)
    (sa sb : NDArr) (cl : Bool) (q : ℚ) :
    Ev.poolRelease ∉ (group_coherence_impl orc procs sa sb cl q).1 := by
  unfold group_coherence_impl
  split
  · simp
  · split
    · simp
    · split
      · simp
      · split <;> simp

/-- C6 (counterexample to the claim as stated): a normal-return run in which
the pool is created at entry but no release happens before exit. -/
theorem pool_release_missing_on_normal_path :
    Ev.poolCreate 1 ∈ (group_coherence_impl natOracle 1 (NDArr.two [[1], [2]])
        (NDArr.two [[1], [2]]) true 95).1 ∧
      Ev.poolRelease ∉ (group_coherence_impl natOracle 1 (NDArr.two [[1], [2]])
        (NDArr.two [[1], [2]]) true 95).1 := by
  decide

/-! ### C3: the single-subject validation gap -/

/-- C3 (the code at the claim's failing input): a 2-D single-subject group of
shape `(1, 3)` passes validation (no `CoherenceException`), and the worker
pool is then created; moreover `signals_b` is never inspected — a 1-D
`signals_b` also passes validation, because line 120 of the source unpacks
`signals_a.shape` a second time. -/
theorem single_subject_passes_validation_and_pool_created :
    groupValidate (NDArr.two [[1, 2, 3]]) (NDArr.two [[1, 2, 3]]) = .ok (1, 3, 1, 3) ∧
      Ev.poolCreate 1 ∈ (group_coherence_impl natOracle 1 (NDArr.two [[1, 2, 3]])
        (NDArr.two [[1, 2, 3]]) true 95).1 ∧
      groupValidate (NDArr.two [[1, 2], [3, 4]]) (NDArr.one [9]) = .ok (2, 2, 2, 2) := by
  exact ⟨by decide, by decide, by decide⟩

/-! ### C1: the transform-stage chunk slicing -/

/-- C1 (the code at the claim's failing input): with 3 subjects and one
worker, the planner's single chunk is `[1, 2]`; the dispatch slices
`signals[1:2, :]` (dropping subject 2) while reassembly writes
`[1:3, :]`, so broadcasting duplicates subject 1's transform into subject 2's
cache row: the cache ends as `[init, T(subj 1), T(subj 1)]`, although subject
2's transform is `30`. -/
theorem transform_chunk_misassigns_subjects :
    transformStage natOracle 1 (NDArr.two [[10], [20], [30]])
        (NDArr.two [[10], [20], [30]]) 3 3 = .ok ([5], [0, 20, 20], [0, 20, 20]) ∧
      (natOracle.wtf [30]).1 = 30 := by
  exact ⟨by decide, by decide⟩

/-! ### C8: dual-group shape validation -/

/-- C8: whenever a group's two signal arrays differ in shape (either
dimension), `dual_group_coherence_impl` stops with a `CoherenceException`
(either the unpacking one or the dimension-mismatch one) and an empty event
trace — no pool is created and neither single-group pipeline runs. -/
theorem dual_shape_mismatch_rejected {T : Type} (orc : Oracles T) (procs : Nat)
    (g1a g1b g2a g2b : NDArr) (q : ℚ)
    (h : g1a.shape ≠ g1b.shape ∨ g2a.shape ≠ g2b.shape) :
    ∃ e, (e = CErr.notTwoDimensional ∨ e = CErr.dimMismatch) ∧
      dual_group_coherence_impl orc procs g1a g1b g2a g2b q = ([], .error e) := by
  suffices hv : ∃ e, (e = CErr.notTwoDimensional ∨ e = CErr.dimMismatch) ∧
      dualValidate g1a g1b g2a g2b = .error e by
    obtain ⟨e, he1, he2⟩ := hv
    exact ⟨e, he1, by unfold dual_group_coherence_impl; rw [he2]⟩
  cases g1a with
  | one d => exact ⟨.notTwoDimensional, Or.inl rfl, rfl⟩
  | two r1 =>
    cases g1b with
    | one d => exact ⟨.notTwoDimensional, Or.inl rfl, rfl⟩
    | two r2 =>
      cases g2a with
      | one d => exact ⟨.notTwoDimensional, Or.inl rfl, rfl⟩
      | two r3 =>
        cases g2b with
        | one d => exact ⟨.notTwoDimensional, Or.inl rfl, rfl⟩
        | two r4 =>
          refine ⟨.dimMismatch, Or.inr rfl, ?_⟩
          have hc : r1.length ≠ r2.length ∨ (r1.headD []).length ≠ (r2.headD []).length ∨
              r3.length ≠ r4.length ∨ (r3.headD []).length ≠ (r4.headD []).length := by
            simp only [NDArr.shape] at h
            rcases h with h | h
            · by_cases h1 : r1.length = r2.length
              · exact Or.inr (Or.inl (by intro h2; exact h (by rw [h1, h2])))
              · exact Or.inl h1
            · by_cases h1 : r3.length = r4.length
              · exact Or.inr (Or.inr (Or.inr (by intro h2; exact h (by rw [h1, h2]))))
              · exact Or.inr (Or.inr (Or.inl h1))
          simp only [dualValidate, unpack2]
          rw [if_pos hc]

/-- C8 witness: a concrete group-1 shape mismatch `(2, 2)` vs `(2, 3)`. -/
theorem dual_shape_mismatch_rejected_witness :
    (NDArr.shape (NDArr.two [[1, 2], [3, 4]]) ≠ NDArr.shape (NDArr.two [[1, 2, 3], [4, 5, 6]]) ∨
        NDArr.shape (NDArr.two [[1], [2]]) ≠ NDArr.shape (NDArr.two [[1], [2]])) ∧
      ∃ e, (e = CErr.notTwoDimensional ∨ e = CErr.dimMismatch) ∧
        dual_group_coherence_impl natOracle 1 (NDArr.two [[1, 2], [3, 4]])
          (NDArr.two [[1, 2, 3], [4, 5, 6]]) (NDArr.two [[1], [2]])
          (NDArr.two [[1], [2]]) 95 = ([], .error e) :=
  ⟨by decide, dual_shape_mismatch_rejected natOracle 1 (NDArr.two [[1, 2], [3, 4]])
    (NDArr.two [[1, 2, 3], [4, 5, 6]]) (NDArr.two [[1], [2]]) (NDArr.two [[1], [2]]) 95
    (by decide)⟩

/-! ### C7 and C10: the dual-group contract -/

/-- Helper: a single-group run invoked with `cleanup = false` emits no
cleanup event (the only `pymodalib.cleanup()` call of the single-group
orchestrator is guarded by the flag). -/
theorem cleanup_not_emitted_when_disabled {T : Type} (orc : Oracles T)
    (procs : Nat) (sa sb : NDArr) (q : ℚ) :
    Ev.cleanup ∉ (group_coherence_impl orc procs sa sb false q).1 := by
  unfold group_coherence_impl
  split
  · simp
  · split
    · simp
    · split
      · simp
      · simp

/-- C7: when validation passes and both inner runs succeed, the dual-group
orchestrator returns exactly three values — the frequency axis and the two
groups' residual coherences, straight from the two inner runs with no further
statistic computed — invokes each inner run with cleanup disabled (their
traces contain no cleanup event), and performs a single cleanup after both
runs complete. -/
theorem dual_group_contract {T : Type} (orc : Oracles T) (procs : Nat)
    (g1a g1b g2a g2b : NDArr) (q : ℚ) (t1 t2 : List Ev) (f1 f2 : List ℚ)
    (r1 r2 : List Cell)
    (hv : dualValidate g1a g1b g2a g2b = .ok ())
    (h1 : group_coherence_impl orc procs g1a g1b false q = (t1, .ok (f1, r1)))
    (h2 : group_coherence_impl orc procs g2a g2b false q = (t2, .ok (f2, r2))) :
    dual_group_coherence_impl orc procs g1a g1b g2a g2b q =
        (t1 ++ t2 ++ [Ev.cleanup], .ok (f1, r1, r2)) ∧
      Ev.cleanup ∉ t1 ∧ Ev.cleanup ∉ t2 := by
  refine ⟨?_, ?_, ?_⟩
  · unfold dual_group_coherence_impl
    rw [hv, h1, h2]
  · have := cleanup_not_emitted_when_disabled orc procs g1a g1b q
    rwa [h1] at this
  · have := cleanup_not_emitted_when_disabled orc procs g2a g2b q
    rwa [h2] at this

/-- C7 witness: two concrete 2-subject groups; the inner runs each trace only
the pool creation, and the dual run appends exactly one cleanup. -/
theorem dual_group_contract_witness :
    dualValidate (NDArr.two [[1], [2]]) (NDArr.two [[1], [2]]) (NDArr.two [[1], [2]])
        (NDArr.two [[1], [2]]) = .ok () ∧
      (dual_group_coherence_impl natOracle 1 (NDArr.two [[1], [2]]) (NDArr.two [[1], [2]])
            (NDArr.two [[1], [2]]) (NDArr.two [[1], [2]]) 95 =
          ([Ev.poolCreate 1] ++ [Ev.poolCreate 1] ++ [Ev.cleanup],
            .ok ([5], [some [0], some [4]], [some [0], some [4]])) ∧
        Ev.cleanup ∉ [Ev.poolCreate 1] ∧ Ev.cleanup ∉ [Ev.poolCreate 1]) :=
  ⟨by decide, dual_group_contract natOracle 1 (NDArr.two [[1], [2]]) (NDArr.two [[1], [2]])
    (NDArr.two [[1], [2]]) (NDArr.two [[1], [2]]) 95 [Ev.poolCreate 1] [Ev.poolCreate 1]
    [5] [5] [some [0], some [4]] [some [0], some [4]] (by decide)
    (by with_unfolding_all rfl) (by with_unfolding_all rfl)⟩

/-- C10: the frequency axis the dual-group orchestrator returns is exactly the
first group's run's axis; the second run's axis (`f2`) is discarded without
ever being compared to the first — the conclusion does not depend on `f2`. -/
theorem dual_freq_is_first_groups_axis {T : Type} (orc : Oracles T) (procs : Nat)
    (g1a g1b g2a g2b : NDArr) (q : ℚ) (t1 t2 : List Ev) (f1 f2 : List ℚ)
    (r1 r2 : List Cell)
    (hv : dualValidate g1a g1b g2a g2b = .ok ())
    (h1 : group_coherence_impl orc procs g1a g1b false q = (t1, .ok (f1, r1)))
    (h2 : group_coherence_impl orc procs g2a g2b false q = (t2, .ok (f2, r2))) :
    (dual_group_coherence_impl orc procs g1a g1b g2a g2b q).2 = .ok (f1, r1, r2) := by
  unfold dual_group_coherence_impl
  rw [hv, h1, h2]

/-- C10 witness: the two groups produce different frequency axes (`[1]` vs
`[3]`); the dual run succeeds anyway and returns the first group's `[1]`. -/
theorem dual_freq_is_first_groups_axis_witness :
    ([(1 : ℚ)] ≠ [(3 : ℚ)] ∧
        group_coherence_impl freqOracle 1 (NDArr.two [[3], [4]]) (NDArr.two [[3], [4]])
          false 95 = ([Ev.poolCreate 1], .ok ([3], [some [0], some [0]]))) ∧
      (dual_group_coherence_impl freqOracle 1 (NDArr.two [[1], [2]]) (NDArr.two [[1], [2]])
          (NDArr.two [[3], [4]]) (NDArr.two [[3], [4]]) 95).2 =
        .ok ([1], [some [0], some [0]], [some [0], some [0]]) :=
  ⟨⟨by decide, by with_unfolding_all rfl⟩,
    dual_freq_is_first_groups_axis freqOracle 1 (NDArr.two [[1], [2]])
    (NDArr.two [[1], [2]]) (NDArr.two [[3], [4]]) (NDArr.two [[3], [4]]) 95
    [Ev.poolCreate 1] [Ev.poolCreate 1] [1] [3] [some [0], some [0]] [some [0], some [0]]
    (by decide) (by with_unfolding_all rfl) (by with_unfolding_all rfl)⟩

/-! ### C4: nonnegativity of the residual after clipping -/

/-- Helper: whatever a successful single-group run returns as residual is the
surrogate engine's output on some coherence tensor. -/
theorem group_impl_ok_residual {T : Type} {orc : Oracles T} {procs : Nat}
    {sa sb : NDArr} {cl : Bool} {q : ℚ} {f : List ℚ} {res : List Cell}
    (h : (group_coherence_impl orc procs sa sb cl q).2 = .ok (f, res)) :
    ∃ coh, res = surrogateEngine q orc.nscales coh := by
  unfold group_coherence_impl at h
  split at h
  · simp at h
  · split at h
    · simp at h
    · split at h
      · simp at h
      · simp only [Prod.snd, Except.ok.injEq, Prod.mk.injEq] at h
        exact ⟨_, h.2.symm⟩

/-- Helper: every (non-NaN) entry of the surrogate engine's output is
nonnegative, because of the final clipping step. -/
theorem surrogateEngine_entry_nonneg (q : ℚ) (nsc : Nat) (coh : Grid) (k s : Nat)
    (l : List ℚ) (v : ℚ) (hk : (surrogateEngine q nsc coh)[k]? = some (some l))
    (hs : l[s]? = some v) : 0 ≤ v := by
  unfold surrogateEngine clipNeg at hk
  rw [List.getElem?_map] at hk
  cases hi : (idxMap (fun j r => surrStep q nsc (diagToNaN coh) j r) (diagExtract coh))[k]? with
  | none => rw [hi] at hk; simp at hk
  | some c =>
    rw [hi] at hk
    cases c with
    | none => simp at hk
    | some l0 =>
      rw [Option.map_some'] at hk
      replace hk := Option.some.inj (Option.some.inj hk)
      rw [← hk] at hs
      rw [List.getElem?_map] at hs
      cases hu : l0[s]? with
      | none => rw [hu] at hs; simp at hs
      | some u =>
        rw [hu, Option.map_some'] at hs
        replace hs := Option.some.inj hs
        rw [← hs]
        split
        · exact le_refl 0
        · exact le_of_not_lt (by assumption)

/-- C4: every element of the residual coherence a successful single-group run
returns is nonnegative (the final clipping step raises negatives to 0); this
holds for any percentile, in particular for any percentile in `[0, 100]`. -/
theorem group_coherence_residual_nonneg {T : Type} (orc : Oracles T) (procs : Nat)
    (sa sb : NDArr) (cl : Bool) (q : ℚ) (f : List ℚ) (res : List Cell)
    (h : (group_coherence_impl orc procs sa sb cl q).2 = .ok (f, res))
    (k s : Nat) (l : List ℚ) (v : ℚ)
    (hk : res[k]? = some (some l)) (hs : l[s]? = some v) : 0 ≤ v := by
  obtain ⟨coh, hcoh⟩ := group_impl_ok_residual h
  subst hcoh
  exact surrogateEngine_entry_nonneg q orc.nscales coh k s l v hk hs

/-- C4 witness: the concrete 2-subject run; entry `4` of subject 1 is
nonnegative. -/
theorem group_coherence_residual_nonneg_witness :
    (group_coherence_impl natOracle 1 (NDArr.two [[1], [2]]) (NDArr.two [[1], [2]])
          true 95).2 = .ok ([5], [some [0], some [4]]) ∧ (0 : ℚ) ≤ 4 :=
  ⟨by with_unfolding_all rfl,
    group_coherence_residual_nonneg natOracle 1 (NDArr.two [[1], [2]])
      (NDArr.two [[1], [2]]) true 95 [5] [some [0], some [4]]
      (by with_unfolding_all rfl) 1 0 [4] 4 (by decide) (by decide)⟩

/-! ### C9: percentile-100 monotonicity -/

theorem ratFloor_eq_floor (p : ℚ) : ratFloor p = ⌊p⌋ := by
  unfold ratFloor
  rw [Rat.floor_def]

theorem mem_insertSorted {x a : ℚ} {l : List ℚ} :
    x ∈ insertSorted a l ↔ x = a ∨ x ∈ l := by
  induction l with
  | nil => simp [insertSorted]
  | cons y ys ih =>
    unfold insertSorted
    split
    · simp [List.mem_cons]
    · simp only [List.mem_cons, ih]
      tauto

theorem mem_sortAsc {x : ℚ} {l : List ℚ} : x ∈ sortAsc l ↔ x ∈ l := by
  induction l with
  | nil => simp [sortAsc]
  | cons y ys ih =>
    rw [show sortAsc (y :: ys) = insertSorted y (sortAsc ys) from rfl,
      mem_insertSorted, ih]
    simp [List.mem_cons]

theorem getD_sortAsc_nonneg {l : List ℚ} (h : ∀ x ∈ l, 0 ≤ x) (i : Nat) :
    0 ≤ (sortAsc l).getD i 0 := by
  rw [List.getD_eq_getElem?_getD]
  cases hx : (sortAsc l)[i]? with
  | none => simp
  | some x =>
    simp only [Option.getD_some]
    exact h x (mem_sortAsc.1 (List.getElem?_mem hx))

theorem convex_point_nonneg (lo hi fr : ℚ) (hlo : 0 ≤ lo) (hhi : 0 ≤ hi)
    (h0 : 0 ≤ fr) (h1 : fr ≤ 1) : 0 ≤ lo + fr * (hi - lo) := by nlinarith

/-- numpy's linear-interpolation percentile of a list of nonnegative values is
nonnegative (it is a convex combination of two sorted entries, or the default
0 when an index falls outside the list). -/
theorem npPercentile_nonneg (q : ℚ) (vals : List ℚ) (h : ∀ x ∈ vals, 0 ≤ x) :
    0 ≤ npPercentile q vals := by
  unfold npPercentile
  apply convex_point_nonneg
  · exact getD_sortAsc_nonneg h _
  · exact getD_sortAsc_nonneg h _
  · rw [ratFloor_eq_floor]
    exact sub_nonneg.2 (Int.floor_le _)
  · rw [ratFloor_eq_floor]
    have := Int.lt_floor_add_one (q / 100 * (((sortAsc vals).length : ℚ) - 1))
    push_cast at this ⊢
    linarith

theorem idxMap_mem {α β : Type} {f : Nat → α → β} {l : List α} {x : β}
    (h : x ∈ idxMap f l) : ∃ j a, a ∈ l ∧ x = f j a := idxMapFrom_mem h

theorem nonneg_diagToNaN {g : Grid} (h : NonnegGrid g) : NonnegGrid (diagToNaN g) := by
  intro row hrow c hc l hl v hv
  obtain ⟨i, row0, hrow0, rfl⟩ := idxMap_mem hrow
  obtain ⟨j, c0, hc0, rfl⟩ := idxMap_mem hc
  by_cases hij : i = j
  · simp [hij] at hl
  · rw [if_neg hij] at hl
    exact h row0 hrow0 c0 hc0 l hl v hv

theorem nonneg_surrView {g : Grid} (h : NonnegGrid g) (k : Nat) :
    NonnegGrid (surrView g k) := by
  intro row hrow c hc l hl v hv
  obtain ⟨i, row0, hrow0, rfl⟩ := idxMap_mem hrow
  obtain ⟨j, c0, hc0, rfl⟩ := idxMap_mem hc
  by_cases hij : i ≠ k ∧ j ≠ k
  · simp [hij] at hl
  · rw [if_neg hij] at hl
    exact h row0 hrow0 c0 hc0 l hl v hv

/-- A NaN-substituted per-scale surrogate percentile over a nonnegative tensor
is nonnegative. -/
theorem nanPercScale_getD_nonneg (q : ℚ) {g : Grid} (s : Nat) (h : NonnegGrid g) :
    0 ≤ (nanPercScale q g.flatten s).getD 0 := by
  unfold nanPercScale
  split
  · simp
  · simp only [Option.getD_some]
    apply npPercentile_nonneg
    intro x hx
    obtain ⟨c, hc, hfc⟩ := List.mem_filterMap.1 hx
    obtain ⟨row, hrow, hcrow⟩ := List.mem_flatten.1 hc
    cases c with
    | none => simp at hfc
    | some l =>
      exact h row hrow (some l) hcrow l rfl x
        (List.getElem?_mem (by simpa using hfc))

theorem avgRows_nonneg {m : List (List ℚ)} (h : ∀ row ∈ m, ∀ v ∈ row, 0 ≤ v) :
    ∀ v ∈ avgRows m, 0 ≤ v := by
  intro v hv
  obtain ⟨row, hrow, rfl⟩ := List.mem_map.1 hv
  exact div_nonneg (List.sum_nonneg (h row hrow)) (Nat.cast_nonneg _)

theorem worker_nonneg {T : Type} {phc : T → T → List (List ℚ)}
    (hphc : ∀ t u, ∀ row ∈ phc t u, ∀ v ∈ row, 0 ≤ v)
    (wta wtb : List T) (mask : List (List Bool)) :
    NonnegGrid (groupCoherenceWorker phc wta wtb mask) := by
  intro row hrow c hc l hl v hv
  obtain ⟨p, _hp, rfl⟩ := List.mem_map.1 hrow
  obtain ⟨u, _hu, rfl⟩ := List.mem_map.1 hc
  split at hl
  · exact avgRows_nonneg (hphc p.1 u.1) v ((Option.some.inj hl) ▸ hv)
  · simp at hl

theorem sliceAssign_mem {α : Type} {dst out : List α} {s e : Nat} {src : List α}
    (h : sliceAssign dst s e src = .ok out) : ∀ r ∈ out, r ∈ dst ∨ r ∈ src := by
  unfold sliceAssign at h
  split at h
  · cases h
    intro r hr
    rcases List.mem_append.1 hr with h1 | h2
    · rcases List.mem_append.1 h1 with h3 | h4
      · exact Or.inl (List.mem_of_mem_take h3)
      · exact Or.inr h4
    · exact Or.inl (List.mem_of_mem_drop h2)
  · split at h
    · cases h
      intro r hr
      rcases List.mem_append.1 hr with h1 | h2
      · rcases List.mem_append.1 h1 with h3 | h4
        · exact Or.inl (List.mem_of_mem_take h3)
        · exact Or.inr (by rw [List.eq_of_mem_replicate h4]; simp)
      · exact Or.inl (List.mem_of_mem_drop h2)
    · cases h

theorem mergeCoh_nonneg {cs : List (List Nat)} {rs : List Grid} {acc out : Grid}
    (h : mergeCoh acc cs rs = .ok out) (hacc : NonnegGrid acc)
    (hrs : ∀ g ∈ rs, NonnegGrid g) : NonnegGrid out := by
  induction cs generalizing acc rs with
  | nil =>
    cases rs with
    | nil =>
      unfold mergeCoh at h
      cases h
      exact hacc
    | cons r rs =>
      unfold mergeCoh at h
      cases h
      exact hacc
  | cons c cs ih =>
    cases rs with
    | nil =>
      unfold mergeCoh at h
      cases h
      exact hacc
    | cons r rs =>
      unfold mergeCoh at h
      split at h
      · cases h
      · split at h
        · cases h
        · refine ih h ?_ (fun g hg => hrs g (List.mem_cons_of_mem _ hg))
          intro row hrow
          rcases sliceAssign_mem (by assumption) row hrow with h1 | h2
          · exact hacc row h1
          · exact hrs r (List.mem_cons_self _ _) row h2

theorem nonneg_applyNegMask {g : Grid} {mask : List (List Bool)}
    (h : NonnegGrid g) : NonnegGrid (applyNegMask g mask) := by
  intro row hrow c hc l hl v hv
  obtain ⟨p, hp, rfl⟩ := List.mem_map.1 hrow
  obtain ⟨u, hu, rfl⟩ := List.mem_map.1 hc
  split at hl
  · exact h p.1 (List.of_mem_zip hp).1 u.1 (List.of_mem_zip hu).1 l hl v hv
  · simp at hl

/-- The coherence tensor the builder produces over a nonnegative
phase-coherence primitive has only nonnegative entries. -/
theorem coherenceStage_nonneg {T : Type} {orc : Oracles T} {procs xa : Nat}
    {ca cb : List T} {coh : Grid}
    (hphc : ∀ t u, ∀ row ∈ orc.phc t u, ∀ v ∈ row, 0 ≤ v)
    (h : coherenceStage orc procs xa ca cb = .ok coh) : NonnegGrid coh := by
  unfold coherenceStage at h
  split at h
  · cases h
  · split at h
    · cases h
    · cases h
      apply nonneg_applyNegMask
      refine mergeCoh_nonneg (by assumption) ?_ ?_
      · intro row hrow c hc l hl v hv
        rw [List.eq_of_mem_replicate hrow] at hc
        rw [List.eq_of_mem_replicate hc] at hl
        cases hl
      · intro g hg
        obtain ⟨p, _hp, rfl⟩ := List.mem_map.1 hg
        exact worker_nonneg hphc p.1 cb p.2

/-- C9: with `percentile = 100`, each subject's residual coherence is
elementwise at most its raw diagonal coherence: by nonnegativity of the
phase-coherence primitive every surrogate value is nonnegative, hence so is
the percentile-100 threshold (the surrogate maximum) that is subtracted
before clipping. -/
theorem residual_le_raw_at_percentile_100 {T : Type} (orc : Oracles T)
    (procs xa : Nat) (ca cb : List T) (coh : Grid)
    (hphc : ∀ t u, ∀ row ∈ orc.phc t u, ∀ v ∈ row, 0 ≤ v)
    (h : coherenceStage orc procs xa ca cb = .ok coh)
    (k s : Nat) (l dl : List ℚ) (v w : ℚ)
    (hr : (surrogateEngine 100 orc.nscales coh)[k]? = some (some l))
    (hl : l[s]? = some v)
    (hd : (diagExtract coh)[k]? = some (some dl))
    (hw : dl[s]? = some w) : v ≤ w := by
  have hnn : NonnegGrid coh := coherenceStage_nonneg hphc h
  have hw0 : 0 ≤ w := by
    unfold diagExtract at hd
    rw [idxMap_getElem?] at hd
    cases hrow : coh[k]? with
    | none => rw [hrow] at hd; cases hd
    | some row =>
      rw [hrow, Option.map_some'] at hd
      replace hd := Option.some.inj hd
      rw [List.getD_eq_getElem?_getD] at hd
      cases hcell : row[k]? with
      | none => rw [hcell] at hd; cases hd
      | some c =>
        rw [hcell] at hd
        simp only [Option.getD_some] at hd
        subst hd
        exact hnn row (List.getElem?_mem hrow) (some dl) (List.getElem?_mem hcell)
          dl rfl w (List.getElem?_mem hw)
  unfold surrogateEngine clipNeg at hr
  rw [List.getElem?_map, idxMap_getElem?, hd, Option.map_some', Option.map_some'] at hr
  simp only [surrStep, Option.map_some'] at hr
  replace hr := Option.some.inj (Option.some.inj hr)
  rw [← hr, List.getElem?_map] at hl
  rw [List.getElem?_zipWith] at hl
  cases hperc : ((List.range orc.nscales).map (fun s =>
      (nanPercScale 100 (surrView (diagToNaN coh) k).flatten s).getD 0))[s]? with
  | none => rw [hw, hperc] at hl; cases hl
  | some t =>
    rw [hw, hperc] at hl
    simp only [Option.map_some'] at hl
    replace hl := Option.some.inj hl
    have ht0 : 0 ≤ t := by
      rw [List.getElem?_map] at hperc
      cases hrange : (List.range orc.nscales)[s]? with
      | none => rw [hrange] at hperc; cases hperc
      | some s' =>
        rw [hrange, Option.map_some'] at hperc
        replace hperc := Option.some.inj hperc
        rw [← hperc]
        exact nanPercScale_getD_nonneg 100 s'
          (nonneg_surrView (nonneg_diagToNaN hnn) k)
    rw [← hl]
    split
    · exact hw0
    · linarith

/-- C9 witness: the constant-coherence oracle on a 2-subject run; residual
`0` is at most raw diagonal coherence `1`. -/
theorem residual_le_raw_at_percentile_100_witness :
    (coherenceStage constOracle 1 2 [(0 : ℚ), 0] [(0 : ℚ), 0] =
        .ok [[some [1], some [1]], [some [1], some [1]]]) ∧ (0 : ℚ) ≤ 1 :=
  ⟨by with_unfolding_all rfl,
    residual_le_raw_at_percentile_100 constOracle 1 2 [(0 : ℚ), 0] [(0 : ℚ), 0]
      [[some [1], some [1]], [some [1], some [1]]]
      (by intro t u row hrow v hv; simp [constOracle] at hrow; simp [hrow] at hv; simp [hv])
      (by with_unfolding_all rfl) 0 0 [0] [1] 0 1
      (by with_unfolding_all rfl) (by decide) (by with_unfolding_all rfl) (by decide)⟩

/-! ### C5: lemmas about `npArange`, the chunk sizes, and the chunk list -/

theorem npArange_length (a b : Nat) : (npArange a b).length = b - a := by
  simp [npArange]

theorem npArange_getElem? {a b n : Nat} (h : n < b - a) :
    (npArange a b)[n]? = some (n + a) := by
  simp [npArange, List.getElem?_map, List.getElem?_range h]

theorem npArange_head? {a m : Nat} (h : 0 < m) :
    (npArange a (a + m)).head? = some a := by
  rw [List.head?_eq_getElem?, npArange_getElem? (by omega)]
  simp

theorem npArange_getLast? {a m : Nat} (h : 0 < m) :
    (npArange a (a + m)).getLast? = some (a + m - 1) := by
  rw [List.getLast?_eq_getElem?, npArange_length]
  rw [npArange_getElem? (by omega)]
  congr 1
  omega

theorem npArange_eq_nil (a : Nat) : npArange a a = [] := by
  simp [npArange]

theorem npArange_take {a m sz : Nat} (h : sz ≤ m) :
    (npArange a (a + m)).take sz = npArange a (a + sz) := by
  apply List.ext_getElem?
  intro n
  by_cases hn : n < sz
  · rw [List.getElem?_take_of_lt hn, npArange_getElem? (by omega),
      npArange_getElem? (by omega)]
  · rw [List.getElem?_eq_none, List.getElem?_eq_none]
    · rw [npArange_length]; omega
    · rw [List.length_take, npArange_length]; omega

theorem npArange_drop {a m sz : Nat} (h : sz ≤ m) :
    (npArange a (a + m)).drop sz = npArange (a + sz) (a + m) := by
  apply List.ext_getElem?
  intro n
  rw [List.getElem?_drop]
  by_cases hn : n < m - sz
  · rw [npArange_getElem? (by omega), npArange_getElem? (by omega)]
    congr 1
    omega
  · rw [List.getElem?_eq_none, List.getElem?_eq_none]
    · rw [npArange_length]; omega
    · rw [npArange_length]; omega

theorem takeSizes_arange {szs : List Nat} {a m : Nat} (h : szs.sum ≤ m) :
    takeSizes szs (npArange a (a + m)) = chunkList a szs := by
  induction szs generalizing a m with
  | nil => rfl
  | cons sz rest ih =>
    have hsz : sz ≤ m := by simp [List.sum_cons] at h; omega
    unfold takeSizes chunkList
    rw [npArange_take hsz, npArange_drop hsz]
    rw [show a + m = (a + sz) + (m - sz) by omega]
    rw [ih (by simp [List.sum_cons] at h; omega)]

theorem sum_map_add_nat {α : Type} (l : List α) (f g : α → Nat) :
    (l.map (fun x => f x + g x)).sum = (l.map f).sum + (l.map g).sum := by
  induction l with
  | nil => rfl
  | cons x xs ih => simp [List.sum_cons, ih]; omega

theorem sum_range_ite (k r : Nat) :
    ((List.range k).map (fun i => if i < r then 1 else 0)).sum = min r k := by
  induction k with
  | zero => simp
  | succ k ih =>
    rw [List.range_succ, List.map_append, List.sum_append, ih]
    by_cases hk : k < r <;> simp [hk] <;> omega

theorem chunkSizes_sum {n k : Nat} (hk : 0 < k) : (chunkSizes n k).sum = n := by
  unfold chunkSizes
  rw [sum_map_add_nat, sum_range_ite]
  have h1 : ((List.range k).map (fun _ => n / k)).sum = k * (n / k) := by
    induction k with
    | zero => simp
    | succ j ihj =>
      rw [List.range_succ, List.map_append, List.sum_append]
      simp [Nat.succ_mul]
  rw [h1]
  have := Nat.div_add_mod n k
  have := Nat.mod_lt n hk
  omega

theorem chunkSizes_pos {n k : Nat} (hk : 0 < k) (hkn : k ≤ n) :
    ∀ sz ∈ chunkSizes n k, 1 ≤ sz := by
  intro sz hsz
  obtain ⟨i, _hi, rfl⟩ := List.mem_map.1 hsz
  have : 1 ≤ n / k := (Nat.one_le_div_iff hk).2 hkn
  omega

/-! ### C5: the per-chunk arguments and worker outputs -/

theorem chunkHeadLast_arange {a sz : Nat} (h : 1 ≤ sz) :
    chunkHeadLast (npArange a (a + sz)) = .ok (a, a + sz - 1) := by
  unfold chunkHeadLast
  rw [npArange_head? h, npArange_getLast? h]

theorem coherenceArg_arange {T : Type} (ca : List T) (mask : List (List Bool))
    {a sz : Nat} (h : 1 ≤ sz) :
    coherenceArg ca mask (npArange a (a + sz)) =
      .ok ((ca.drop a).take sz, (mask.drop a).take sz) := by
  unfold coherenceArg
  rw [chunkHeadLast_arange h]
  simp only []
  have : a + sz - 1 + 1 - a = sz := by omega
  rw [this]

theorem mapExcept_coherenceArg {T : Type} (ca : List T) (mask : List (List Bool)) :
    ∀ (szs : List Nat) (a : Nat), (∀ sz ∈ szs, 1 ≤ sz) →
      mapExcept (coherenceArg ca mask) (chunkList a szs) = .ok (argsOf ca mask a szs) := by
  intro szs
  induction szs with
  | nil => intro a _; rfl
  | cons sz rest ih =>
    intro a hsz
    unfold chunkList mapExcept argsOf
    rw [coherenceArg_arange ca mask (hsz sz (List.mem_cons_self _ _))]
    rw [ih (a + sz) (fun x hx => hsz x (List.mem_cons_of_mem _ hx))]

theorem worker_output_good {T : Type} (phc : T → T → List (List ℚ))
    (wta cb : List T) {sz xa : Nat} (hlen : wta.length = sz) (hcb : cb.length = xa) :
    (groupCoherenceWorker phc wta cb (List.replicate sz (List.replicate xa true))).length
        = sz ∧
      ∀ row ∈ groupCoherenceWorker phc wta cb
          (List.replicate sz (List.replicate xa true)), GoodRow xa row := by
  constructor
  · simp [groupCoherenceWorker, List.length_zip, hlen]
  · intro row hrow
    obtain ⟨p, hp, rfl⟩ := List.mem_map.1 hrow
    have hp2 := (List.of_mem_zip hp).2
    rw [List.eq_of_mem_replicate hp2]
    constructor
    · simp [List.length_zip, hcb]
    · intro c hc
      obtain ⟨u, hu, rfl⟩ := List.mem_map.1 hc
      have hu2 := (List.of_mem_zip hu).2
      rw [List.eq_of_mem_replicate hu2]
      simp

/-! ### C5: the reassembly loop -/

theorem sliceAssign_exact {α : Type} {dst src : List α} {s e : Nat}
    (hse : s ≤ e) (he : e ≤ dst.length) (hlen : src.length = e - s) :
    sliceAssign dst s e src = .ok (dst.take s ++ src ++ dst.drop e) := by
  unfold sliceAssign
  rw [min_eq_left he, min_eq_left hse, if_pos hlen]

theorem mergeCoh_chunkList {xa : Nat} :
    ∀ (szs : List Nat) (a : Nat) (acc : Grid) (results : List Grid) (out : Grid),
      (∀ sz ∈ szs, 1 ≤ sz) →
      a + szs.sum ≤ xa →
      acc.length = xa →
      List.Forall₂ (fun sz g => (g : Grid).length = sz ∧ ∀ row ∈ g, GoodRow xa row)
        szs results →
      mergeCoh acc (chunkList a szs) results = .ok out →
      out.length = xa ∧
        (∀ i, i < a ∨ a + szs.sum ≤ i → out[i]? = acc[i]?) ∧
        (∀ i, a ≤ i → i < a + szs.sum → ∃ r, out[i]? = some r ∧ GoodRow xa r) := by
  intro szs
  induction szs with
  | nil =>
    intro a acc results out _ _ hacc hres h
    cases hres
    unfold chunkList mergeCoh at h
    cases h
    refine ⟨hacc, fun i _ => rfl, fun i h1 h2 => ?_⟩
    simp at h2
    omega
  | cons sz rest ih =>
    intro a acc results out hsz hbound hacc hres h
    cases hres with
    | cons hg hgs =>
      rename_i g gs
      have hsz1 : 1 ≤ sz := hsz sz (List.mem_cons_self _ _)
      have hsum : (sz :: rest).sum = sz + rest.sum := by simp [List.sum_cons]
      have hbound' : a + sz ≤ xa := by rw [hsum] at hbound; omega
      have hglen : g.length = sz := hg.1
      unfold chunkList mergeCoh at h
      rw [chunkHeadLast_arange hsz1] at h
      simp only [] at h
      rw [show a + sz - 1 + 1 = a + sz by omega] at h
      rw [sliceAssign_exact (by omega) (by rw [hacc]; omega)
        (by rw [hglen]; omega)] at h
      have hta : (acc.take a).length = a := by
        rw [List.length_take, hacc]; omega
      have hlen' : (acc.take a ++ g ++ acc.drop (a + sz)).length = xa := by
        rw [List.length_append, List.length_append, hta, hglen,
          List.length_drop, hacc]
        omega
      have hpre : ∀ i, i < a →
          (acc.take a ++ g ++ acc.drop (a + sz))[i]? = acc[i]? := by
        intro i hi
        rw [List.append_assoc, List.getElem?_append_left (by rw [hta]; omega),
          List.getElem?_take_of_lt hi]
      have hmid : ∀ i, a ≤ i → i < a + sz →
          ∃ r, (acc.take a ++ g ++ acc.drop (a + sz))[i]? = some r ∧ GoodRow xa r := by
        intro i hi1 hi2
        rw [List.append_assoc, List.getElem?_append_right (by rw [hta]; omega), hta,
          List.getElem?_append_left (by rw [hglen]; omega)]
        have hidx : i - a < g.length := by rw [hglen]; omega
        exact ⟨g[i - a], List.getElem?_eq_getElem hidx,
          hg.2 _ (List.getElem_mem hidx)⟩
      have hpost : ∀ i, a + sz ≤ i →
          (acc.take a ++ g ++ acc.drop (a + sz))[i]? = acc[i]? := by
        intro i hi
        rw [List.append_assoc, List.getElem?_append_right (by rw [hta]; omega), hta,
          List.getElem?_append_right (by rw [hglen]; omega), hglen,
          List.getElem?_drop]
        congr 1
        omega
      obtain ⟨hlen2, hout1, hout2⟩ := ih (a + sz) (acc.take a ++ g ++ acc.drop (a + sz))
        gs out (fun x hx => hsz x (List.mem_cons_of_mem _ hx))
        (by rw [hsum] at hbound; omega) hlen' hgs h
      refine ⟨hlen2, ?_, ?_⟩
      · intro i hi
        rw [hsum] at hi
        rcases hi with hi | hi
        · rw [hout1 i (Or.inl (by omega)), hpre i hi]
        · rw [hout1 i (Or.inr (by omega)), hpost i (by omega)]
      · intro i hi1 hi2
        rw [hsum] at hi2
        by_cases hcase : i < a + sz
        · obtain ⟨r, hr1, hr2⟩ := hmid i hi1 hcase
          exact ⟨r, by rw [hout1 i (Or.inl hcase)]; exact hr1, hr2⟩
        · exact hout2 i (by omega) (by omega)

/-! ### C5: the blanket negated-mask pass is the identity for an all-true mask -/

theorem zip_true_map_id :
    ∀ (row : List Cell) (n : Nat), row.length ≤ n →
      (row.zip (List.replicate n true)).map
        (fun q => if q.2 = true then q.1 else none) = row := by
  intro row
  induction row with
  | nil => intro n _; simp
  | cons c cs ih =>
    intro n hn
    cases n with
    | zero => simp at hn
    | succ m =>
      rw [List.replicate_succ]
      simp only [List.zip_cons_cons, List.map_cons, if_pos rfl]
      rw [ih m (by simpa using hn)]
      simp

theorem applyNegMask_all_true {n w : Nat} :
    ∀ (g : Grid), g.length ≤ n → (∀ row ∈ g, row.length ≤ w) →
      applyNegMask g (List.replicate n (List.replicate w true)) = g := by
  intro g
  induction g generalizing n with
  | nil => intro _ _; simp [applyNegMask]
  | cons row g' ih =>
    intro hn hrows
    cases n with
    | zero => simp at hn
    | succ m =>
      unfold applyNegMask
      rw [List.replicate_succ]
      simp only [List.zip_cons_cons, List.map_cons]
      rw [zip_true_map_id row w (hrows row (List.mem_cons_self _ _))]
      have := ih (n := m) (by simpa using hn)
        (fun r hr => hrows r (List.mem_cons_of_mem _ hr))
      unfold applyNegMask at this
      rw [this]

/-! ### C5: the worker results match the chunk sizes -/

theorem results_good {T : Type} (orc : Oracles T) {ca cb : List T} {xa : Nat}
    (hca : ca.length = xa) (hcb : cb.length = xa) :
    ∀ (szs : List Nat) (a : Nat), a + szs.sum ≤ xa →
      List.Forall₂ (fun sz g => (g : Grid).length = sz ∧ ∀ row ∈ g, GoodRow xa row)
        szs ((argsOf ca (List.replicate xa (List.replicate xa true)) a szs).map
          (fun p => groupCoherenceWorker orc.phc p.1 cb p.2)) := by
  intro szs
  induction szs with
  | nil => intro a _; exact List.Forall₂.nil
  | cons sz rest ih =>
    intro a hbound
    have hb : a + sz ≤ xa := by simp [List.sum_cons] at hbound; omega
    unfold argsOf
    rw [List.map_cons]
    refine List.Forall₂.cons ?_
      (ih (a + sz) (by simp [List.sum_cons] at hbound ⊢; omega))
    have hmask : (((List.replicate xa (List.replicate xa true) :
        List (List Bool)).drop a).take sz) =
          List.replicate sz (List.replicate xa true) := by
      rw [List.drop_replicate, List.take_replicate]
      congr 1
      omega
    have hwta : ((ca.drop a).take sz).length = sz := by
      rw [List.length_take, List.length_drop, hca]
      omega
    simp only [hmask]
    exact worker_output_good orc.phc ((ca.drop a).take sz) cb hwta hcb

/-- Helper for C5: the Coherence Matrix Builder fills the whole tensor — the
output is an `xa x xa` grid with no NaN cell (the inclusion mask the code
builds is all-true). -/
theorem coherenceStage_good {T : Type} {orc : Oracles T} {procs xa : Nat}
    {ca cb : List T} {coh : Grid}
    (hp : 1 ≤ procs) (hca : ca.length = xa) (hcb : cb.length = xa)
    (h : coherenceStage orc procs xa ca cb = .ok coh) :
    coh.length = xa ∧ ∀ i, i < xa → ∃ r, coh[i]? = some r ∧ GoodRow xa r := by
  have hsum : (chunkSizes xa (min procs xa)).sum = xa := by
    by_cases hxa : xa = 0
    · subst hxa
      rw [Nat.min_zero]
      rfl
    · exact chunkSizes_sum (by omega)
  have hpos : ∀ sz ∈ chunkSizes xa (min procs xa), 1 ≤ sz := by
    by_cases hxa : xa = 0
    · subst hxa
      rw [Nat.min_zero]
      intro sz hsz
      simp [chunkSizes] at hsz
    · exact chunkSizes_pos (by omega) (min_le_right _ _)
  have hchunks : arraySplit (npArange 0 xa) procs =
      chunkList 0 (chunkSizes xa (min procs xa)) := by
    unfold arraySplit
    rw [npArange_length, Nat.sub_zero]
    rw [show npArange 0 xa = npArange 0 (0 + xa) from by rw [Nat.zero_add]]
    exact takeSizes_arange (by rw [hsum])
  unfold coherenceStage at h
  rw [hchunks, mapExcept_coherenceArg ca
    (List.replicate xa (List.replicate xa true)) (chunkSizes xa (min procs xa)) 0 hpos] at h
  simp only [] at h
  split at h
  · cases h
  · cases h
    rename_i coh' hmerge
    obtain ⟨hlen, _hout, hgood⟩ := mergeCoh_chunkList (chunkSizes xa (min procs xa)) 0
      (List.replicate xa (List.replicate xa none))
      ((argsOf ca (List.replicate xa (List.replicate xa true)) 0
        (chunkSizes xa (min procs xa))).map
          (fun p => groupCoherenceWorker orc.phc p.1 cb p.2))
      coh' hpos (by rw [hsum]; omega) (by simp)
      (results_good orc hca hcb (chunkSizes xa (min procs xa)) 0 (by rw [hsum]; omega))
      hmerge
    have hrows : ∀ row ∈ coh', row.length ≤ xa := by
      intro row hrow
      obtain ⟨i, hilen, hrowi⟩ := List.getElem_of_mem hrow
      have hix : i < xa := by rw [hlen] at hilen; omega
      obtain ⟨r, hr1, hr2⟩ := hgood i (by omega) (by rw [hsum]; omega)
      have hsome : coh'[i]? = some row := by
        rw [List.getElem?_eq_getElem hilen, hrowi]
      rw [hsome] at hr1
      have := Option.some.inj hr1
      rw [this]
      exact le_of_eq hr2.1
    rw [applyNegMask_all_true coh' (le_of_eq hlen) hrows]
    refine ⟨hlen, fun i hi => ?_⟩
    exact hgood i (by omega) (by rw [hsum]; omega)

/-- C5: the run's inclusion mask is always entirely true (`mask.fill(True)`),
and then the reassembled coherence tensor has no NaN cell; after the diagonal
entries are extracted as the real coherences and overwritten with NaN, the
NaN cells of the tensor are exactly the diagonal cells. -/
theorem coherenceStage_nan_discipline {T : Type} (orc : Oracles T) (procs xa : Nat)
    (ca cb : List T) (coh : Grid)
    (hp : 1 ≤ procs) (hca : ca.length = xa) (hcb : cb.length = xa)
    (h : coherenceStage orc procs xa ca cb = .ok coh) :
    (∀ i j, i < xa → j < xa → ∃ vals, getCell coh i j = some (some vals)) ∧
    (∀ i j, getCell (diagToNaN coh) i j = some none ↔ (i = j ∧ i < xa)) := by
  obtain ⟨hlen, hgood⟩ := coherenceStage_good hp hca hcb h
  have hcell : ∀ i j, i < xa → j < xa → ∃ vals, getCell coh i j = some (some vals) := by
    intro i j hi hj
    obtain ⟨r, hr1, hr2⟩ := hgood i hi
    have hj' : j < r.length := by rw [hr2.1]; omega
    have hc : r[j]? = some r[j] := List.getElem?_eq_getElem hj'
    have hcnone := hr2.2 r[j] (List.getElem_mem hj')
    cases hcj : r[j] with
    | none => rw [hcj] at hcnone; exact absurd rfl hcnone
    | some vals =>
      refine ⟨vals, ?_⟩
      unfold getCell
      rw [hr1]
      simp only [Option.some_bind]
      rw [hc, hcj]
  refine ⟨hcell, ?_⟩
  intro i j
  constructor
  · intro hnan
    unfold getCell diagToNaN at hnan
    rw [idxMap_getElem?] at hnan
    cases hrow : coh[i]? with
    | none => rw [hrow] at hnan; simp at hnan
    | some row =>
      rw [hrow, Option.map_some'] at hnan
      simp only [Option.some_bind] at hnan
      rw [idxMap_getElem?] at hnan
      cases hcellj : row[j]? with
      | none => rw [hcellj] at hnan; simp at hnan
      | some c =>
        rw [hcellj, Option.map_some'] at hnan
        replace hnan := Option.some.inj hnan
        have hi : i < xa := by
          obtain ⟨hil, _⟩ := List.getElem?_eq_some.1 hrow
          omega
        by_cases hij : i = j
        · exact ⟨hij, hi⟩
        · rw [if_neg hij] at hnan
          obtain ⟨r, hr1, hr2⟩ := hgood i hi
          rw [hrow] at hr1
          have hrr := Option.some.inj hr1
          exact absurd hnan (hr2.2 c (by rw [← hrr]; exact List.getElem?_mem hcellj))
  · rintro ⟨rfl, hi⟩
    obtain ⟨r, hr1, hr2⟩ := hgood i hi
    unfold getCell diagToNaN
    rw [idxMap_getElem?, hr1, Option.map_some']
    simp only [Option.some_bind]
    rw [idxMap_getElem?]
    have hi' : i < r.length := by rw [hr2.1]; omega
    have hc : r[i]? = some r[i] := List.getElem?_eq_getElem hi'
    rw [hc, Option.map_some', if_pos rfl]

/-- C5 witness: the concrete 2-subject builder run; its tensor is
`[[some [1], some [2]], [some [2], some [4]]]`. -/
theorem coherenceStage_nan_discipline_witness :
    ((1 : Nat) ≤ 1 ∧
        coherenceStage natOracle 1 2 [(1 : ℚ), 2] [(1 : ℚ), 2] =
          .ok [[some [1], some [2]], [some [2], some [4]]]) ∧
      ((∀ i j, i < 2 → j < 2 → ∃ vals,
          getCell [[some [1], some [2]], [some [2], some [4]]] i j = some (some vals)) ∧
        (∀ i j, getCell (diagToNaN [[some [1], some [2]], [some [2], some [4]]]) i j =
            some none ↔ (i = j ∧ i < 2))) :=
  ⟨⟨le_refl 1, by with_unfolding_all rfl⟩,
    coherenceStage_nan_discipline natOracle 1 2 [(1 : ℚ), 2] [(1 : ℚ), 2]
      [[some [1], some [2]], [some [2], some [4]]] (le_refl 1) rfl rfl
      (by with_unfolding_all rfl)⟩
